import Mathlib

/-
Verification development for the MEAutility electrode-array library
(file src/MEAutility.py). The source is Python 2 code: integer division
with the / operator is floor division (Int.fdiv here), and range over
integers produces integers. Electric-field values are modelled over the
real numbers; electrode-layout geometry, whose quantities are ratios of
integers, is modelled over the rationals; the square-grid layout, whose
coordinates are Python 2 integers, is modelled over the integers.

Python failure modes are made explicit: a raised exception becomes an
Except.error with a PyError describing the exception, and a function
that prints a message and returns None has that None modelled as a
distinguished result value.
-/

namespace NeuroCNN

/-- Python exceptions and crashes that the modelled code can produce. -/
inductive PyError where
  | valueError (msg : String)
  | notImplementedError (msg : String)
  | indexError
  | typeCrash
deriving DecidableEq, Repr

/-- Electrode: position and current, from class Electrode. The Python
constructor defaults are current = 0, sigma = 0.3, max_field = 1000,
points_per_edge = 1; defaults are not baked into the structure, callers
pass all fields. -/
structure Electrode where
  position : Fin 3 → ℝ
  current : ℝ
  sigma : ℝ
  max_field : ℝ
  points_per_edge : ℕ

/-- Euclidean norm of a 3-vector, la.norm in the source. -/
noncomputable def norm3 (v : Fin 3 → ℝ) : ℝ :=
  Real.sqrt (v 0 ^ 2 + v 1 ^ 2 + v 2 ^ 2)

/-- The closed-form point-source potential from Electrode.field_contribution:
current / (2 pi sigma |point - position|). -/
noncomputable def fieldFormula (e : Electrode) (point : Fin 3 → ℝ) : ℝ :=
  e.current / (2 * Real.pi * e.sigma * norm3 (point - e.position))

open Classical in
/-- The scalar value produced by the points_per_edge = 1 branch of
Electrode.field_contribution: the closed form away from the electrode,
max_field at the electrode itself (the any(point != position) test). -/
noncomputable def fieldValue (e : Electrode) (point : Fin 3 → ℝ) : ℝ :=
  if point ≠ e.position then fieldFormula e point else e.max_field

open Classical in
/-- Electrode.field_contribution, lines 56-62 of the source. When
points_per_edge is not 1 the Python function falls off its end and
returns None, modelled as none. -/
noncomputable def field_contribution (e : Electrode) (point : Fin 3 → ℝ) : Option ℝ :=
  if e.points_per_edge = 1 then
    if point ≠ e.position then some (fieldFormula e point)
    else some e.max_field
  else none

theorem field_contribution_eq_fieldValue (e : Electrode) (point : Fin 3 → ℝ)
    (h : e.points_per_edge = 1) :
    field_contribution e point = some (fieldValue e point) := by
  by_cases hp : point = e.position
  · simp [field_contribution, fieldValue, h, hp]
  · simp [field_contribution, fieldValue, h, hp]

/-- MEA: a collection of electrodes (the list-constructor case of class
MEA, where number_electrode = len(electrodes)). -/
structure MEA where
  electrodes : List Electrode

/-- The running sum vp += electrode.field_contribution(point) of
MEA.compute_field. A None contribution makes Python raise a TypeError,
modelled by the Option bind. -/
noncomputable def sumContribs (es : List Electrode) (point : Fin 3 → ℝ) : Option ℝ :=
  es.foldl (fun acc e => acc.bind (fun a => (field_contribution e point).map (fun c => a + c)))
    (some 0)

/-- The total potential at a point: the sum of fieldValue over the
electrodes in order, as the spec describes the superposition sum. -/
noncomputable def singleSum (es : List Electrode) (point : Fin 3 → ℝ) : ℝ :=
  es.foldl (fun a e => a + fieldValue e point) 0

/-- Reading a 3-component Python point into a vector. -/
def toVec3 (l : List ℝ) : Fin 3 → ℝ := fun i => l.getD i 0

/-- The per-row loop of the batch branch of MEA.compute_field. -/
noncomputable def mapContribs (es : List Electrode) : List (List ℝ) → Option (List ℝ)
  | [] => some []
  | r :: rest =>
      (sumContribs es (toVec3 r)).bind
        (fun v => (mapContribs es rest).map (fun vs => v :: vs))

/-- The argument of MEA.compute_field: a 1-dimensional numpy array (one
point) or a 2-dimensional numpy array of shape (rows.length, ncols). -/
inductive PointsInput where
  | one (p : List ℝ)
  | many (ncols : ℕ) (rows : List (List ℝ))

/-- What MEA.compute_field can hand back: a scalar, an array of values,
or Python None (the print-and-return error path). -/
inductive FieldResult where
  | scalar (v : ℝ)
  | array (vs : List ℝ)
  | pyNone

/-- MEA.compute_field, lines 123-151: a 1d point must have exactly 3
components and a 2d batch must have 3 columns, otherwise an error is
printed and None is returned; valid inputs get the superposition sum,
one value per point. -/
noncomputable def compute_field (m : MEA) (input : PointsInput) : Except PyError FieldResult :=
  match input with
  | .one p =>
      if p.length ≠ 3 then .ok .pyNone
      else
        match sumContribs m.electrodes (toVec3 p) with
        | some v => .ok (.scalar v)
        | none => .error .typeCrash
  | .many ncols rows =>
      if ncols ≠ 3 then .ok .pyNone
      else
        match mapContribs m.electrodes rows with
        | some vs => .ok (.array vs)
        | none => .error .typeCrash

/-- MEA.set_currents, lines 89-91: for ii in range(number_electrode)
assign currents_array[ii] to electrode ii. There is no length check: a
short array raises IndexError part-way through, after the earlier
electrodes were already mutated; extra entries are silently ignored.
The first component records the raised exception, the second the
electrode list after the loop stopped. -/
def set_currents : List Electrode → List ℝ → Option PyError × List Electrode
  | [], _ => (none, [])
  | e :: es, [] => (some .indexError, e :: es)
  | e :: es, v :: vs =>
      let r := set_currents es vs
      (r.1, { e with current := v } :: r.2)

/-- MEA.get_currents: the per-electrode currents in order. -/
def get_currents (es : List Electrode) : List ℝ := es.map (fun e => e.current)

theorem set_currents_spec (es : List Electrode) (vals : List ℝ) :
    (set_currents es vals).1 = (if vals.length < es.length then some PyError.indexError else none) ∧
    (set_currents es vals).2.map (fun e => e.current) =
      vals.take es.length ++ (es.map (fun e => e.current)).drop vals.length ∧
    (set_currents es vals).2.map (fun e => e.position) = es.map (fun e => e.position) ∧
    (set_currents es vals).2.length = es.length := by
  induction es generalizing vals with
  | nil => simp [set_currents]
  | cons e es ih =>
      cases vals with
      | nil => simp [set_currents]
      | cons v vs =>
          have h := ih vs
          simp [set_currents, h.1, h.2.1, h.2.2.1, h.2.2.2, Nat.succ_lt_succ_iff]

/-- Python 2 range(start, stop, step) for a positive step: the integers
start, start + step, ... strictly below stop. -/
def pyRange (start stop step : ℤ) : List ℤ :=
  (List.range ((stop - start + step - 1).fdiv step).toNat).map
    (fun i : ℕ => start + step * (i : ℤ))

/-- The sources_pos_y sequence of SquareMEA.__init__, lines 210-214.
Python 2 integer division floors, so dim / 2 and pitch / 2 are
Int.fdiv; the unary minus in -self.dim / 2 binds before the division. -/
def sourcesPosY (dim pitch : ℤ) : List ℤ :=
  if dim % 2 = 0 then
    pyRange ((-dim).fdiv 2 * pitch + pitch.fdiv 2) (dim.fdiv 2 * pitch) pitch
  else
    pyRange (-(dim.fdiv 2) * pitch) (dim.fdiv 2 * pitch + pitch) pitch

/-- The electrode positions created by SquareMEA.__init__: outer loop
over sources_pos_y, inner loop over its reversal, all at x = x_plane. -/
def squareMEA_positions (dim pitch x_plane : ℤ) : List (ℤ × ℤ × ℤ) :=
  (sourcesPosY dim pitch).flatMap
    (fun ii => (sourcesPosY dim pitch).reverse.map (fun jj => (x_plane, ii, jj)))

/-- The even-dim coordinate sequence exactly as the spec words it, with
exact (rational) division: from -dim/2*pitch + pitch/2 in steps of
pitch. Used to compare the spec sentence against the source. -/
def specEvenCoords (dim pitch : ℤ) : List ℚ :=
  (List.range dim.toNat).map
    (fun k : ℕ => -(dim : ℚ) / 2 * (pitch : ℚ) + (pitch : ℚ) / 2 + (pitch : ℚ) * (k : ℚ))

/-- A sequence of in-place writes flat[index] := value, left to right. -/
def writeList : List (ℕ × ℝ) → List ℝ → List ℝ
  | [], acc => acc
  | p :: ps, acc => writeList ps (acc.set p.1 p.2)

/-- The writes performed by SquareMEA.set_current_matrix, lines 251-256:
current_array[dim * yy + zz] = currents[zz, yy] over yy, zz in
range(dim). -/
def currentMatrixPairs (dim : ℕ) (M : ℕ → ℕ → ℝ) : List (ℕ × ℝ) :=
  (List.range dim).flatMap
    (fun yy => (List.range dim).map (fun zz => (dim * yy + zz, M zz yy)))

/-- The flat current array built by SquareMEA.set_current_matrix from a
dim x dim matrix, starting from np.zeros(number_electrode) with
number_electrode = dim * dim. -/
def set_current_matrix (dim : ℕ) (M : ℕ → ℕ → ℝ) : List ℝ :=
  writeList (currentMatrixPairs dim M) (List.replicate (dim * dim) 0)

/-- SquareMEA.set_current_matrix end to end: build the flat array, then
MEA.set_currents applies it to the electrodes. -/
def set_current_matrix_state (dim : ℕ) (M : ℕ → ℕ → ℝ) (es : List Electrode) :
    Option PyError × List Electrode :=
  set_currents es (set_current_matrix dim M)

/-- SquareMEA.get_current_matrix, lines 237-242:
current_matrix[zz, yy] = get_currents()[dim * yy + zz]. -/
def get_current_matrix (dim : ℕ) (es : List Electrode) : List (List ℝ) :=
  (List.range dim).map
    (fun zz => (List.range dim).map (fun yy => (get_currents es).getD (dim * yy + zz) 0))

theorem writeList_length (ps : List (ℕ × ℝ)) (acc : List ℝ) :
    (writeList ps acc).length = acc.length := by
  induction ps generalizing acc with
  | nil => rfl
  | cons p ps ih => rw [writeList, ih, List.length_set]

theorem writeList_getElem?_not_mem (ps : List (ℕ × ℝ)) (acc : List ℝ) (k : ℕ)
    (h : k ∉ ps.map Prod.fst) : (writeList ps acc)[k]? = acc[k]? := by
  induction ps generalizing acc with
  | nil => rfl
  | cons p ps ih =>
      simp only [List.map_cons, List.mem_cons] at h
      push_neg at h
      rw [writeList, ih _ h.2, List.getElem?_set]
      simp [Ne.symm h.1]

theorem writeList_getElem?_mem (ps : List (ℕ × ℝ)) (acc : List ℝ) (k : ℕ) (v : ℝ)
    (hnd : (ps.map Prod.fst).Nodup) (hm : (k, v) ∈ ps) (hk : k < acc.length) :
    (writeList ps acc)[k]? = some v := by
  induction ps generalizing acc with
  | nil => exact absurd hm (List.not_mem_nil _)
  | cons p ps ih =>
      simp only [List.map_cons, List.nodup_cons] at hnd
      rcases List.mem_cons.1 hm with hhead | htail
      · subst hhead
        rw [writeList, writeList_getElem?_not_mem _ _ _ hnd.1, List.getElem?_set]
        simp [hk]
      · rw [writeList]
        exact ih _ hnd.2 htail (by rw [List.length_set]; exact hk)

/-- np.linspace(start, stop, num): num evenly spaced samples, both
endpoints included; num = 1 gives just the start. -/
noncomputable def linspace (start stop : ℝ) (num : ℕ) : List ℝ :=
  if num = 1 then [start]
  else (List.range num).map (fun i : ℕ => start + (stop - start) * (i : ℝ) / ((num : ℝ) - 1))

/-- GeometricNeuron: soma position, alignment direction (already
normalized by the constructor), axon length and sample count. -/
structure GeometricNeuron where
  soma_pos : Fin 3 → ℝ
  align_dir : Fin 3 → ℝ
  length : ℝ
  points : ℕ

/-- GeometricNeuron.get_axon_points, lines 281-284: soma_pos + st *
align_dir for st in linspace(0, length, num=points). -/
noncomputable def get_axon_points (g : GeometricNeuron) : List (Fin 3 → ℝ) :=
  (linspace 0 g.length g.points).map (fun st => g.soma_pos + st • g.align_dir)

/-- GeometricNeuron.get_axon_end. -/
noncomputable def get_axon_end (g : GeometricNeuron) : Fin 3 → ℝ :=
  g.soma_pos + g.length • g.align_dir

/-- Whether the second character list starts with the first. -/
def startsWithChars : List Char → List Char → Bool
  | [], _ => true
  | _ :: _, [] => false
  | a :: as, b :: bs => a = b && startsWithChars as bs

/-- Python substring membership sub in s, on character lists. -/
def containsSub (sub s : List Char) : Bool :=
  match s with
  | [] => sub.isEmpty
  | _ :: rest => startsWithChars sub s || containsSub sub rest

/-- np.arange(start, stop, step) over the rationals, for nonzero step:
ceil((stop - start) / step) points start + i * step. -/
def arangeQ (start stop step : ℚ) : List ℚ :=
  (List.range (Int.ceil ((stop - start) / step)).toNat).map
    (fun i : ℕ => start + step * (i : ℚ))

/-- One in-plane axis of np.mgrid[0:1, -(d-1)/2.:d/2.:1, ...]: the d
values -(d-1)/2 + i (the divisions by 2. are float, hence exact). -/
def mgridAxis (d : ℕ) : List ℚ :=
  arangeQ (-((d : ℚ) - 1) / 2) ((d : ℚ) / 2) 1

/-- The neuropixels v1 stagger offsets [pitch0/4, -pitch0/4] * (dim1/2);
dim1/2 is Python 2 integer floor division. -/
def npixYoffset (d1 : ℕ) (p0 : ℚ) : List ℚ :=
  (List.replicate (d1 / 2) [p0 / 4, -p0 / 4]).flatten

/-- Numpy broadcasting of a 1-d offset onto one row along the trailing
axis: lengths must agree, or one of the two sides has length 1. -/
def broadcastAdd1 (row off : List ℚ) : Option (List ℚ) :=
  if row.length = off.length then some (List.zipWith (fun a b => a + b) row off)
  else if row.length = 1 then some (off.map (fun b => row.headD 0 + b))
  else if off.length = 1 then some (row.map (fun a => a + off.headD 0))
  else none

/-- np.add(y, yoffset) over the rows of the 2-d grid y; a broadcast
failure raises ValueError. -/
def mapBroadcast (off : List ℚ) : List (List ℚ) → Option (List (List ℚ))
  | [] => some []
  | r :: rs => (broadcastAdd1 r off).bind (fun r2 => (mapBroadcast off rs).map (fun rest => r2 :: rest))

/-- The el_pos assembly at lines 327-329: reshape x, y, z to columns and
np.concatenate along axis 1, which requires the three flattened arrays
to have equal size. -/
def concat3 (xs ys zs : List ℚ) : Except PyError (List (ℚ × ℚ × ℚ)) :=
  if xs.length = ys.length ∧ ys.length = zs.length then
    .ok (List.zipWith Prod.mk xs (List.zipWith Prod.mk ys zs))
  else .error (.valueError "could not broadcast or concatenate input arrays")

/-- The neuronexus-32 hexagonal 3-column layout, lines 301-306, for
column sizes c0, c1, c2. -/
def neuronexusPositions (c0 c1 c2 : ℕ) (p0 p1 : ℚ) : Except PyError (List (ℚ × ℚ × ℚ)) :=
  let zshift := -p1 * ((c1 : ℚ) - 1) / 2
  concat3 (List.replicate (c0 + c1 + c2) 0)
    (List.replicate c0 (-p0) ++ List.replicate c1 0 ++ List.replicate c2 p0)
    ((arangeQ (p1 / 2) ((c0 : ℚ) * p1) p1 ++ arangeQ 0 ((c1 : ℚ) * p1) p1 ++
        arangeQ (p1 / 2) ((c2 : ℚ) * p1) p1).map (fun z => z + zshift))

/-- The plain rectangular grid (default branch, also neuropixels v2):
x = xoffset everywhere, y and z the centered mgrid axes scaled by the
pitches, flattened row-major. -/
def gridBranch (xo : ℚ) (dim : List ℕ) (pitch : List ℚ) : Except PyError (List (ℚ × ℚ × ℚ)) :=
  match dim, pitch with
  | d0 :: d1 :: _, p0 :: p1 :: _ =>
      concat3 ((mgridAxis d0).flatMap (fun _ => (mgridAxis d1).map (fun _ => xo)))
        ((mgridAxis d0).flatMap (fun yv => (mgridAxis d1).map (fun _ => yv * p0)))
        ((mgridAxis d0).flatMap (fun _ => (mgridAxis d1).map (fun zv => zv * p1)))
  | _, _ => .error .indexError

/-- The neuropixels v1 staggered grid, lines 308-313: the mgrid, the y
values scaled by pitch0 and broadcast-added to the alternating quarter
pitch offsets, z scaled by pitch1. -/
def npixV1Branch (xo : ℚ) (dim : List ℕ) (pitch : List ℚ) : Except PyError (List (ℚ × ℚ × ℚ)) :=
  match dim, pitch with
  | d0 :: d1 :: _, p0 :: p1 :: _ =>
      match mapBroadcast (npixYoffset d1 p0) ((mgridAxis d0).map (fun yv => (mgridAxis d1).map (fun _ => yv * p0))) with
      | none => .error (.valueError "operands could not be broadcast together")
      | some rows =>
          concat3 ((mgridAxis d0).flatMap (fun _ => (mgridAxis d1).map (fun _ => xo)))
            rows.flatten
            ((mgridAxis d0).flatMap (fun _ => (mgridAxis d1).map (fun zv => zv * p1)))
  | _, _ => .error .indexError

/-- get_elcoords before the sortlist step, lines 294-329: dispatch on
the lowercased electrode name. A neuronexus-32 name picks the fixed
column sizes (10,10,10 for a -cut name, else 10,12,10) and demands
their sum equal np.prod(dim); a neuropixels name requires a v1 or v2
variant tag; anything else builds the plain rectangular grid.
The name lowering electrode_name.lower() is the character-wise map
pyLowerChars below. -/
def pyLowerChars (name : String) : List Char := name.toList.map Char.toLower

def raw_elcoords (xo : ℚ) (dim : List ℕ) (pitch : List ℚ) (name : String) :
    Except PyError (List (ℚ × ℚ × ℚ)) :=
  let lname := pyLowerChars name
  if containsSub "neuronexus-32".toList lname then
    if containsSub "cut".toList lname then
      if ([10, 10, 10] : List ℕ).sum ≠ dim.prod then
        .error (.valueError "Dimensions in Neuronexus-32-channel probe do not match.")
      else
        match pitch with
        | p0 :: p1 :: _ => neuronexusPositions 10 10 10 p0 p1
        | _ => .error .indexError
    else
      if ([10, 12, 10] : List ℕ).sum ≠ dim.prod then
        .error (.valueError "Dimensions in Neuronexus-32-channel probe do not match.")
      else
        match pitch with
        | p0 :: p1 :: _ => neuronexusPositions 10 12 10 p0 p1
        | _ => .error .indexError
  else if containsSub "neuropixels".toList lname then
    if containsSub "v1".toList lname then npixV1Branch xo dim pitch
    else if containsSub "v2".toList lname then gridBranch xo dim pitch
    else .error (.notImplementedError "This version of the NeuroPixels Probe is not implemented")
  else gridBranch xo dim pitch

/-- The resort loop at lines 332-334: for i, si in enumerate(sortlist),
el_pos_sorted[si] = el_pos[i]; idx plays the role of i. An out-of-range
index on either side raises IndexError. -/
def applySortGo (orig : List (ℚ × ℚ × ℚ)) (idx : ℕ) :
    List ℕ → List (ℚ × ℚ × ℚ) → Option (List (ℚ × ℚ × ℚ))
  | [], acc => some acc
  | si :: rest, acc =>
      if si < acc.length ∧ idx < orig.length then
        applySortGo orig (idx + 1) rest (acc.set si (orig.getD idx (0, 0, 0)))
      else none

/-- The sortlist application: el_pos_sorted starts as a deep copy of
el_pos, then the enumerate loop runs. -/
def applySortlist (orig : List (ℚ × ℚ × ℚ)) (sl : List ℕ) : Option (List (ℚ × ℚ × ℚ)) :=
  applySortGo orig 0 sl orig

/-- The optional resort of the built positions. -/
def sortStep (sortlist : Option (List ℕ)) (l : List (ℚ × ℚ × ℚ)) :
    Except PyError (List (ℚ × ℚ × ℚ)) :=
  match sortlist with
  | none => .ok l
  | some sl =>
      match applySortlist l sl with
      | some res => .ok res
      | none => .error .indexError

/-- get_elcoords, lines 291-336: the layout branch followed by the
optional sortlist resort. -/
def get_elcoords (xo : ℚ) (dim : List ℕ) (pitch : List ℚ) (name : String)
    (sortlist : Option (List ℕ)) : Except PyError (List (ℚ × ℚ × ℚ)) :=
  (raw_elcoords xo dim pitch name).bind (sortStep sortlist)

theorem sumContribs_foldl (p : Fin 3 → ℝ) (es : List Electrode)
    (h : ∀ e ∈ es, e.points_per_edge = 1) (a : ℝ) :
    es.foldl (fun acc e => acc.bind (fun x => (field_contribution e p).map (fun c => x + c)))
        (some a) =
      some (es.foldl (fun x e => x + fieldValue e p) a) := by
  induction es generalizing a with
  | nil => rfl
  | cons e es ih =>
      simp only [List.foldl_cons, Option.some_bind]
      rw [field_contribution_eq_fieldValue e p (h e (List.mem_cons_self e es))]
      exact ih (fun x hx => h x (List.mem_cons_of_mem e hx)) (a + fieldValue e p)

theorem sumContribs_eq (es : List Electrode) (p : Fin 3 → ℝ)
    (h : ∀ e ∈ es, e.points_per_edge = 1) :
    sumContribs es p = some (singleSum es p) :=
  sumContribs_foldl p es h 0

theorem mapContribs_eq (es : List Electrode) (rows : List (List ℝ))
    (h : ∀ e ∈ es, e.points_per_edge = 1) :
    mapContribs es rows = some (rows.map (fun r => singleSum es (toVec3 r))) := by
  induction rows with
  | nil => rfl
  | cons r rows ih => rw [mapContribs, sumContribs_eq es _ h, ih]; rfl

/-- Claim C1, amended: for every Electrode whose points_per_edge is 1
and every 3D point, field_contribution returns the closed-form value
current / (2 pi sigma |point - position|) when the point differs from
the electrode position, and exactly max_field (whatever current and
sigma are) when they coincide; when points_per_edge is not 1 the
function instead returns no value (Python None). -/
theorem C1_field_contribution (e : Electrode) (point : Fin 3 → ℝ)
    (h : e.points_per_edge = 1) :
    (point ≠ e.position → field_contribution e point = some (fieldFormula e point)) ∧
    (point = e.position → field_contribution e point = some e.max_field) := by
  constructor
  · intro hp; simp [field_contribution, h, hp]
  · intro hp; simp [field_contribution, h, hp]

/-- A unit-current electrode at the origin with the default sigma,
max_field and points_per_edge. -/
noncomputable def eUnit : Electrode := ⟨fun _ => 0, 1, 3 / 10, 1000, 1⟩

/-- The same electrode with points_per_edge = 2, the declared but
unimplemented multi-point configuration. -/
noncomputable def eBad : Electrode := ⟨fun _ => 0, 1, 3 / 10, 1000, 2⟩

/-- The point (0, 0, 1). -/
def pZ : Fin 3 → ℝ := fun i => if i.val = 2 then 1 else 0

theorem pZ_ne_zero_pos : pZ ≠ (fun _ => (0 : ℝ)) := by
  intro h
  have h2 := congrFun h 2
  simp [pZ] at h2

theorem C1_field_contribution_witness :
    eUnit.points_per_edge = 1 ∧
    pZ ≠ eUnit.position ∧
    field_contribution eUnit pZ = some (fieldFormula eUnit pZ) ∧
    field_contribution eUnit eUnit.position = some eUnit.max_field :=
  ⟨rfl, pZ_ne_zero_pos, (C1_field_contribution eUnit pZ rfl).1 pZ_ne_zero_pos,
    (C1_field_contribution eUnit eUnit.position rfl).2 rfl⟩

/-- Claim C1 fails as stated for an Electrode with points_per_edge = 2:
at a point distinct from the electrode position, field_contribution
returns None rather than the closed-form scalar. -/
theorem C1_field_contribution_counterexample :
    pZ ≠ eBad.position ∧ field_contribution eBad pZ = none :=
  ⟨pZ_ne_zero_pos, rfl⟩

/-- Claim C2, amended: for every ElectrodeArray whose electrodes all
have points_per_edge = 1, compute_field on a batch of N valid 3D points
returns exactly N values in input order, the k-th being the sum of the
per-electrode field values at the k-th point, and on a single valid 3D
point returns that sum as one scalar. -/
theorem C2_compute_field (m : MEA) (h : ∀ e ∈ m.electrodes, e.points_per_edge = 1) :
    (∀ p : List ℝ, p.length = 3 →
      compute_field m (.one p) = .ok (.scalar (singleSum m.electrodes (toVec3 p)))) ∧
    (∀ rows : List (List ℝ), (∀ r ∈ rows, r.length = 3) →
      compute_field m (.many 3 rows) =
        .ok (.array (rows.map (fun r => singleSum m.electrodes (toVec3 r)))) ∧
      (rows.map (fun r => singleSum m.electrodes (toVec3 r))).length = rows.length) := by
  constructor
  · intro p hp
    simp [compute_field, hp, sumContribs_eq m.electrodes _ h]
  · intro rows _
    constructor
    · simp [compute_field, mapContribs_eq m.electrodes rows h]
    · simp

/-- An array with the single unit electrode. -/
noncomputable def mUnit : MEA := ⟨[eUnit]⟩

/-- An array with the single points_per_edge = 2 electrode. -/
noncomputable def mBad : MEA := ⟨[eBad]⟩

theorem C2_compute_field_witness :
    compute_field mUnit (.one [0, 0, 1]) =
      .ok (.scalar (singleSum mUnit.electrodes (toVec3 [0, 0, 1]))) ∧
    compute_field mUnit (.many 3 [[0, 0, 1], [0, 2, 0]]) =
      .ok (.array ([[0, 0, 1], [0, 2, 0]].map
        (fun r => singleSum mUnit.electrodes (toVec3 r)))) := by
  have h : ∀ e ∈ mUnit.electrodes, e.points_per_edge = 1 := by
    intro e he
    simp [mUnit] at he
    rw [he]; rfl
  refine ⟨(C2_compute_field mUnit h).1 [0, 0, 1] (by simp), ?_⟩
  exact ((C2_compute_field mUnit h).2 [[0, 0, 1], [0, 2, 0]] (by intro r hr; fin_cases hr <;> simp)).1

/-- Claim C2 fails as stated for an array holding an electrode with
points_per_edge = 2: on the valid 3D point (0, 0, 1) the running sum
vp += field_contribution(point) adds None, so compute_field raises a
TypeError instead of returning the superposition sum. -/
theorem C2_compute_field_counterexample :
    compute_field mBad (.one [0, 0, 1]) = .error .typeCrash := rfl

/-- Claim C7, amended: set_currents performs no length validation. If
the input has exactly count entries it assigns them positionally with
no error; if it has more, the first count are assigned and the rest
silently ignored, again with no error rather than a DimensionMismatch;
if it has fewer, an IndexError is raised only after the first
len(values) electrodes were already overwritten, so prior state is
corrupted rather than left untouched. Electrode positions are never
altered. -/
theorem C7_set_currents (es : List Electrode) (vals : List ℝ) :
    (vals.length = es.length →
      (set_currents es vals).1 = none ∧
      (set_currents es vals).2.map (fun e => e.current) = vals) ∧
    (es.length < vals.length →
      (set_currents es vals).1 = none ∧
      (set_currents es vals).2.map (fun e => e.current) = vals.take es.length) ∧
    (vals.length < es.length →
      (set_currents es vals).1 = some PyError.indexError ∧
      (set_currents es vals).2.map (fun e => e.current) =
        vals ++ (es.map (fun e => e.current)).drop vals.length) ∧
    (set_currents es vals).2.map (fun e => e.position) = es.map (fun e => e.position) := by
  obtain ⟨h1, h2, h3, -⟩ := set_currents_spec es vals
  refine ⟨?_, ?_, ?_, h3⟩
  · intro hlen
    refine ⟨by rw [h1]; simp [hlen], ?_⟩
    rw [h2, ← hlen, List.take_length]
    simp [List.drop_eq_nil_of_le, hlen.ge]
  · intro hlt
    refine ⟨by rw [h1]; simp [Nat.not_lt.2 hlt.le], ?_⟩
    rw [h2]
    simp [List.drop_eq_nil_of_le, hlt.le]
  · intro hlt
    refine ⟨by rw [h1]; simp [hlt], ?_⟩
    rw [h2, List.take_of_length_le hlt.le]

theorem C7_set_currents_witness :
    ([(5 : ℝ)].length < ([eUnit, eUnit] : List Electrode).length) ∧
    (set_currents [eUnit, eUnit] [(5 : ℝ)]).1 = some PyError.indexError ∧
    (set_currents [eUnit, eUnit] [(5 : ℝ)]).2.map (fun e => e.current) =
      [(5 : ℝ)] ++ (([eUnit, eUnit] : List Electrode).map (fun e => e.current)).drop 1 := by
  refine ⟨by simp, ?_⟩
  exact (C7_set_currents [eUnit, eUnit] [(5 : ℝ)]).2.2.1 (by simp)

/-- Claim C7 fails as stated: on a 2-electrode array, set_currents with
the 1-entry input [5] raises IndexError (not a DimensionMismatch
reported before mutation) and leaves the current of the first electrode
already changed to 5, and with the 3-entry input [1, 2, 3] it raises
nothing at all. -/
theorem C7_set_currents_counterexample :
    (set_currents [eUnit, eUnit] [(5 : ℝ)]).1 = some PyError.indexError ∧
    (set_currents [eUnit, eUnit] [(5 : ℝ)]).2.map (fun e => e.current) = [5, 1] ∧
    ([5, 1] : List ℝ) ≠ [1, 1] ∧
    (set_currents [eUnit, eUnit] [(1 : ℝ), 2, 3]).1 = none := by
  refine ⟨rfl, ?_, ?_, rfl⟩
  · rfl
  · intro h
    have h5 := List.head_eq_of_cons_eq h
    norm_num at h5

/-- Claim C8: compute_field reports an invalid-input error (the Python
code prints the error and returns None, producing no field values) when
a single point does not have exactly 3 components, or when a batch has
a column count different from 3. -/
theorem C8_compute_field_invalid (m : MEA) :
    (∀ p : List ℝ, p.length ≠ 3 → compute_field m (.one p) = .ok .pyNone) ∧
    (∀ (n : ℕ) (rows : List (List ℝ)), n ≠ 3 → compute_field m (.many n rows) = .ok .pyNone) := by
  constructor
  · intro p hp; simp [compute_field, hp]
  · intro n rows hn; simp [compute_field, hn]

theorem C8_compute_field_invalid_witness :
    compute_field mUnit (.one [0]) = .ok .pyNone ∧
    compute_field mUnit (.many 2 [[0, 1], [2, 3]]) = .ok .pyNone :=
  ⟨(C8_compute_field_invalid mUnit).1 [0] (by simp),
    (C8_compute_field_invalid mUnit).2 2 [[0, 1], [2, 3]] (by simp)⟩

/-- Claim C9: for a GeometricNeuron with sample_count at least 2,
get_axon_points returns exactly sample_count points, the k-th being
soma_pos + (length * k / (sample_count - 1)) * align_dir, so the points
interpolate linearly from soma_pos (k = 0) to soma_pos +
length * align_dir (k = sample_count - 1), both endpoints included; for
length 10 and sample_count 3 the list is exactly
[soma, soma + 5 dir, soma + 10 dir]. -/
theorem C9_axon_points (g : GeometricNeuron) (h2 : 2 ≤ g.points) :
    (get_axon_points g).length = g.points ∧
    (∀ k, k < g.points →
      (get_axon_points g)[k]? =
        some (g.soma_pos + (g.length * k / ((g.points : ℝ) - 1)) • g.align_dir)) ∧
    (get_axon_points g)[0]? = some g.soma_pos ∧
    (get_axon_points g)[g.points - 1]? = some (g.soma_pos + g.length • g.align_dir) ∧
    (g.length = 10 → g.points = 3 →
      get_axon_points g =
        [g.soma_pos, g.soma_pos + (5 : ℝ) • g.align_dir,
          g.soma_pos + (10 : ℝ) • g.align_dir]) := by
  have hne1 : g.points ≠ 1 := by omega
  have hcast : (1 : ℝ) < (g.points : ℝ) := by
    exact_mod_cast Nat.lt_of_lt_of_le Nat.one_lt_two h2
  have hform : ∀ k, k < g.points →
      (get_axon_points g)[k]? =
        some (g.soma_pos + (g.length * k / ((g.points : ℝ) - 1)) • g.align_dir) := by
    intro k hk
    have harith : (0 : ℝ) + (g.length - 0) * k / ((g.points : ℝ) - 1) =
        g.length * k / ((g.points : ℝ) - 1) := by ring
    simp only [get_axon_points, linspace, if_neg hne1, List.getElem?_map]
    rw [List.getElem?_range hk]
    simp only [Option.map_some, Option.map_some']
    rw [harith]
  refine ⟨?_, hform, ?_, ?_, ?_⟩
  · simp only [get_axon_points, linspace, if_neg hne1, List.length_map, List.length_range]
  · have h0 := hform 0 (by omega)
    simpa using h0
  · have hl := hform (g.points - 1) (by omega)
    rw [hl]
    have hc : ((g.points - 1 : ℕ) : ℝ) = (g.points : ℝ) - 1 := by
      push_cast [Nat.cast_sub (by omega : 1 ≤ g.points)]
      ring
    have hne0 : ((g.points : ℝ) - 1) ≠ 0 := by linarith
    rw [hc, mul_div_assoc, div_self hne0, mul_one]
  · intro hL hp
    have h1 : get_axon_points g = (linspace 0 g.length g.points).map
        (fun st => g.soma_pos + st • g.align_dir) := rfl
    rw [h1, hL, hp]
    have hlin : linspace 0 10 3 = [0, 5, 10] := by
      simp [linspace, List.range_succ]
      norm_num
    rw [hlin]
    simp

/-- The neuron at the origin pointing along (0, 0, 1) with length 10
and 3 samples. -/
noncomputable def gW : GeometricNeuron := ⟨fun _ => 0, pZ, 10, 3⟩

theorem C9_axon_points_witness :
    (get_axon_points gW).length = 3 ∧
    get_axon_points gW =
      [gW.soma_pos, gW.soma_pos + (5 : ℝ) • gW.align_dir,
        gW.soma_pos + (10 : ℝ) • gW.align_dir] := by
  refine ⟨?_, (C9_axon_points gW (by norm_num [gW])).2.2.2.2 rfl rfl⟩
  have h := (C9_axon_points gW (by norm_num [gW])).1
  simpa using h

theorem int_fdiv_mul_add (a b r : ℤ) (hb : 0 < b) (h0 : 0 ≤ r) (h1 : r < b) :
    (a * b + r).fdiv b = a := by
  rw [Int.fdiv_eq_ediv _ hb.le, add_comm, Int.add_mul_ediv_right _ _ hb.ne.symm,
    Int.ediv_eq_zero_of_lt h0 h1, zero_add]

theorem sourcesPosY_even (dim pitch : ℤ) (hd : dim % 2 = 0) (hp : 0 < pitch) :
    sourcesPosY dim pitch = (List.range dim.toNat).map
      (fun k : ℕ => (-dim).fdiv 2 * pitch + pitch.fdiv 2 + pitch * (k : ℤ)) := by
  have h2 : dim.fdiv 2 = dim / 2 := Int.fdiv_eq_ediv _ (by norm_num)
  have h3 : (-dim).fdiv 2 = -(dim / 2) := by
    rw [Int.fdiv_eq_ediv _ (by norm_num)]
    omega
  have h4 : pitch.fdiv 2 = pitch / 2 := Int.fdiv_eq_ediv _ (by norm_num)
  have hcount : (dim.fdiv 2 * pitch - ((-dim).fdiv 2 * pitch + pitch.fdiv 2) + pitch - 1).fdiv
      pitch = dim := by
    rw [h2, h3, h4]
    have hdim2 : 2 * (dim / 2) = dim := by omega
    have hstep : dim / 2 * pitch - (-(dim / 2) * pitch + pitch / 2) + pitch - 1
        = dim * pitch + (pitch - 1 - pitch / 2) := by linear_combination pitch * hdim2
    rw [hstep]
    exact int_fdiv_mul_add dim pitch _ hp (by omega) (by omega)
  rw [sourcesPosY, if_pos hd, pyRange, hcount]

theorem sourcesPosY_odd (dim pitch : ℤ) (hd : dim % 2 = 1) (hp : 0 < pitch) :
    sourcesPosY dim pitch = (List.range dim.toNat).map
      (fun k : ℕ => -(dim.fdiv 2) * pitch + pitch * (k : ℤ)) := by
  have h2 : dim.fdiv 2 = dim / 2 := Int.fdiv_eq_ediv _ (by norm_num)
  have hcount : (dim.fdiv 2 * pitch + pitch - -(dim.fdiv 2) * pitch + pitch - 1).fdiv
      pitch = dim := by
    rw [h2]
    have hdim2 : 2 * (dim / 2) + 1 = dim := by omega
    have hstep : dim / 2 * pitch + pitch - -(dim / 2) * pitch + pitch - 1
        = dim * pitch + (pitch - 1) := by linear_combination pitch * hdim2
    rw [hstep]
    exact int_fdiv_mul_add dim pitch _ hp (by omega) (by omega)
  rw [sourcesPosY, if_neg (by omega), pyRange, hcount]

theorem sum_map_const {α : Type} (l : List α) (c : ℕ) :
    (l.map (fun _ => c)).sum = l.length * c := by
  induction l with
  | nil => simp
  | cons a l ih => simp [ih, Nat.succ_mul, Nat.add_comm]

theorem sourcesPosY_length (dim pitch : ℤ) (_hdpos : 0 < dim) (hp : 0 < pitch) :
    (sourcesPosY dim pitch).length = dim.toNat := by
  rcases Int.emod_two_eq dim with hd | hd
  · rw [sourcesPosY_even dim pitch hd hp, List.length_map, List.length_range]
  · rw [sourcesPosY_odd dim pitch hd hp, List.length_map, List.length_range]

/-- Claim C3, amended: SquareMEA built from dim, pitch, x_plane creates
exactly dim * dim electrodes, all with first coordinate x_plane. The
in-plane axis values are produced with Python 2 floor division: for
even dim they run from (-dim)/2 * pitch + pitch/2 upward in steps of
pitch (dim values), where pitch/2 is the floor, so the sequence is
symmetric about 0 only when pitch is even, not in general as the spec
words it with exact division; for odd dim they run from
-(dim/2) * pitch in steps of pitch using floor division, as claimed.
The dim = 2, pitch = 10, x_plane = 0 example holds: 4 electrodes with
y, z in {-5, 5}, each at x = 0. -/
theorem C3_square_layout (dim pitch x_plane : ℤ) (hdpos : 0 < dim) (hp : 0 < pitch) :
    (squareMEA_positions dim pitch x_plane).length = (dim * dim).toNat ∧
    (∀ q ∈ squareMEA_positions dim pitch x_plane, q.1 = x_plane) ∧
    (dim % 2 = 0 → sourcesPosY dim pitch = (List.range dim.toNat).map
      (fun k : ℕ => (-dim).fdiv 2 * pitch + pitch.fdiv 2 + pitch * (k : ℤ))) ∧
    (dim % 2 = 1 → sourcesPosY dim pitch = (List.range dim.toNat).map
      (fun k : ℕ => -(dim.fdiv 2) * pitch + pitch * (k : ℤ))) ∧
    squareMEA_positions 2 10 0 = [(0, -5, 5), (0, -5, -5), (0, 5, 5), (0, 5, -5)] := by
  have hlen := sourcesPosY_length dim pitch hdpos hp
  refine ⟨?_, ?_, fun hd => sourcesPosY_even dim pitch hd hp,
    fun hd => sourcesPosY_odd dim pitch hd hp, by decide⟩
  · simp only [squareMEA_positions, List.length_flatMap, Function.comp_def,
      List.length_map, List.length_reverse, hlen]
    rw [sum_map_const, hlen]
    have hd : ((dim.toNat : ℤ)) = dim := Int.toNat_of_nonneg hdpos.le
    have hmul : dim * dim = ((dim.toNat * dim.toNat : ℕ) : ℤ) := by push_cast [hd]; ring
    rw [hmul, Int.toNat_natCast]
  · intro q hq
    simp only [squareMEA_positions, List.mem_flatMap, List.mem_map] at hq
    obtain ⟨ii, -, jj, -, rfl⟩ := hq
    rfl

theorem C3_square_layout_witness :
    (0 : ℤ) < 2 ∧ (0 : ℤ) < 10 ∧
    (squareMEA_positions 2 10 0).length = ((2 : ℤ) * 2).toNat ∧
    squareMEA_positions 2 10 0 = [(0, -5, 5), (0, -5, -5), (0, 5, 5), (0, 5, -5)] :=
  ⟨by decide, by decide, (C3_square_layout 2 10 0 (by decide) (by decide)).1,
    (C3_square_layout 2 10 0 (by decide) (by decide)).2.2.2.2⟩

/-- Claim C3 fails as stated for even dim with odd pitch: with dim = 2
and pitch = 3 the code produces axis values [-2, 1] (pitch/2 floors to
1), not the exact-division values [-3/2, 3/2] the spec formula gives,
and the sequence is not symmetric about 0. -/
theorem C3_square_layout_counterexample :
    sourcesPosY 2 3 = [-2, 1] ∧
    (sourcesPosY 2 3).map (fun z : ℤ => (z : ℚ)) ≠ specEvenCoords 2 3 ∧
    ¬ (∀ v ∈ sourcesPosY 2 3, -v ∈ sourcesPosY 2 3) := by
  refine ⟨by decide, ?_, by decide⟩
  have h1 : sourcesPosY 2 3 = [-2, 1] := by decide
  have h2 : specEvenCoords 2 3 = [-(3 : ℚ) / 2, 3 / 2] := by
    simp [specEvenCoords, List.range_succ]
    norm_num
  rw [h1, h2]
  intro hcontra
  simp only [List.map_cons, List.map_nil, List.cons.injEq] at hcontra
  have := hcontra.1
  norm_num at this

theorem currentMatrixPairs_fst_nodup (dim : ℕ) (M : ℕ → ℕ → ℝ) :
    ((currentMatrixPairs dim M).map Prod.fst).Nodup := by
  rw [currentMatrixPairs, List.map_flatMap]
  rw [List.nodup_flatMap]
  constructor
  · intro yy _
    rw [List.map_map]
    exact List.Nodup.map (fun a b hab => by simpa using hab) (List.nodup_range dim)
  · have hpw := List.pairwise_lt_range dim
    refine hpw.imp ?_
    intro yy1 yy2 hlt a h1 h2
    simp only [List.map_map, List.mem_map] at h1 h2
    obtain ⟨zz1, hz1, rfl⟩ := h1
    obtain ⟨zz2, hz2, heq⟩ := h2
    rw [List.mem_range] at hz1 hz2
    have hle : dim * (yy1 + 1) ≤ dim * yy2 := Nat.mul_le_mul_left dim hlt
    rw [Nat.mul_succ] at hle
    simp only [Function.comp] at heq
    omega

theorem currentMatrixPairs_mem (dim : ℕ) (M : ℕ → ℕ → ℝ) (yy zz : ℕ)
    (hy : yy < dim) (hz : zz < dim) :
    (dim * yy + zz, M zz yy) ∈ currentMatrixPairs dim M := by
  simp only [currentMatrixPairs, List.mem_flatMap, List.mem_map]
  exact ⟨yy, List.mem_range.2 hy, ⟨zz, List.mem_range.2 hz, rfl⟩⟩

theorem set_current_matrix_getElem (dim : ℕ) (M : ℕ → ℕ → ℝ) (yy zz : ℕ)
    (hy : yy < dim) (hz : zz < dim) :
    (set_current_matrix dim M)[dim * yy + zz]? = some (M zz yy) := by
  have hb : dim * yy + zz < (List.replicate (dim * dim) (0 : ℝ)).length := by
    rw [List.length_replicate]
    have hle : dim * (yy + 1) ≤ dim * dim := Nat.mul_le_mul_left dim hy
    rw [Nat.mul_succ] at hle
    omega
  exact writeList_getElem?_mem _ _ _ _ (currentMatrixPairs_fst_nodup dim M)
    (currentMatrixPairs_mem dim M yy zz hy hz) hb

theorem set_current_matrix_length (dim : ℕ) (M : ℕ → ℕ → ℝ) :
    (set_current_matrix dim M).length = dim * dim := by
  rw [set_current_matrix, writeList_length, List.length_replicate]

/-- Claim C4: on a square array of side dim (dim * dim electrodes),
set_current_matrix followed by get_current_matrix returns the matrix
unchanged, and both directions use the row-major mapping taking grid
cell (row = z index, col = y index) to flat electrode index
dim * col + row. -/
theorem C4_current_matrix_roundtrip (dim : ℕ) (M : ℕ → ℕ → ℝ) (es : List Electrode)
    (hlen : es.length = dim * dim) :
    (set_current_matrix_state dim M es).1 = none ∧
    get_current_matrix dim (set_current_matrix_state dim M es).2 =
      (List.range dim).map (fun zz => (List.range dim).map (fun yy => M zz yy)) ∧
    (∀ yy zz, yy < dim → zz < dim →
      (set_current_matrix dim M)[dim * yy + zz]? = some (M zz yy)) := by
  have hflatlen : (set_current_matrix dim M).length = dim * dim :=
    set_current_matrix_length dim M
  obtain ⟨h1, h2, -, -⟩ := set_currents_spec es (set_current_matrix dim M)
  have heq : es.length = (set_current_matrix dim M).length := by rw [hlen, hflatlen]
  have hcur : (set_current_matrix_state dim M es).2.map (fun e => e.current) =
      set_current_matrix dim M := by
    rw [set_current_matrix_state, h2, ← heq, List.take_of_length_le heq.ge]
    simp [List.drop_eq_nil_of_le]
  refine ⟨?_, ?_, fun yy zz hy hz => set_current_matrix_getElem dim M yy zz hy hz⟩
  · rw [set_current_matrix_state, h1, if_neg (by omega)]
  · rw [get_current_matrix]
    apply List.map_congr_left
    intro zz hzz
    apply List.map_congr_left
    intro yy hyy
    rw [List.mem_range] at hzz hyy
    rw [get_currents, hcur, List.getD_eq_getElem?_getD,
      set_current_matrix_getElem dim M yy zz hyy hzz, Option.getD_some]

theorem C4_current_matrix_roundtrip_witness :
    get_current_matrix 1 (set_current_matrix_state 1 (fun _ _ => (7 : ℝ)) [eUnit]).2 =
      [[(7 : ℝ)]] ∧
    (set_current_matrix_state 1 (fun _ _ => (7 : ℝ)) [eUnit]).1 = none := by
  have h := C4_current_matrix_roundtrip 1 (fun _ _ => (7 : ℝ)) [eUnit] (by simp)
  refine ⟨?_, h.1⟩
  rw [h.2.1]
  simp [List.range_succ]

theorem ceil_cast_sub_half (c : ℕ) : ⌈(c : ℚ) - 1 / 2⌉ = c := by
  rw [Int.ceil_eq_iff]
  constructor
  · push_cast
    linarith
  · push_cast
    linarith

theorem arangeQ_length (start stop step : ℚ) :
    (arangeQ start stop step).length = (Int.ceil ((stop - start) / step)).toNat := by
  simp [arangeQ]

theorem arangeQ_length_half (c : ℕ) (p : ℚ) (hp : 0 < p) :
    (arangeQ (p / 2) ((c : ℚ) * p) p).length = c := by
  rw [arangeQ_length]
  have harg : ((c : ℚ) * p - p / 2) / p = (c : ℚ) - 1 / 2 := by
    field_simp
    ring
  rw [harg, ceil_cast_sub_half, Int.toNat_natCast]

theorem arangeQ_length_zero (c : ℕ) (p : ℚ) (hp : 0 < p) :
    (arangeQ 0 ((c : ℚ) * p) p).length = c := by
  rw [arangeQ_length]
  have harg : ((c : ℚ) * p - 0) / p = (c : ℚ) := by
    field_simp
  rw [harg, Int.ceil_natCast, Int.toNat_natCast]

theorem mgridAxis_count (d : ℕ) :
    (Int.ceil (((d : ℚ) / 2 - -((d : ℚ) - 1) / 2) / 1)).toNat = d := by
  have harg : ((d : ℚ) / 2 - -((d : ℚ) - 1) / 2) / 1 = (d : ℚ) - 1 / 2 := by ring
  rw [harg, ceil_cast_sub_half, Int.toNat_natCast]

theorem mgridAxis_eq (d : ℕ) :
    mgridAxis d = (List.range d).map (fun i : ℕ => -((d : ℚ) - 1) / 2 + 1 * (i : ℚ)) := by
  rw [mgridAxis, arangeQ, mgridAxis_count]

theorem mgridAxis_length (d : ℕ) : (mgridAxis d).length = d := by
  rw [mgridAxis_eq, List.length_map, List.length_range]

theorem concat3_ok (xs ys zs : List ℚ) (h1 : xs.length = ys.length)
    (h2 : ys.length = zs.length) :
    concat3 xs ys zs = .ok (List.zipWith Prod.mk xs (List.zipWith Prod.mk ys zs)) ∧
    (List.zipWith Prod.mk xs (List.zipWith Prod.mk ys zs)).length = xs.length := by
  constructor
  · rw [concat3, if_pos ⟨h1, h2⟩]
  · simp only [List.length_zipWith, ← h1, ← h2]
    omega

theorem concat3_mismatch (xs ys zs : List ℚ) (h : ¬ (xs.length = ys.length ∧ ys.length = zs.length)) :
    concat3 xs ys zs = .error (.valueError "could not broadcast or concatenate input arrays") := by
  rw [concat3, if_neg h]

theorem flatMap_const_length {α β : Type} (l : List α) (f : α → List β) (n : ℕ)
    (h : ∀ a ∈ l, (f a).length = n) : (l.flatMap f).length = l.length * n := by
  induction l with
  | nil => simp
  | cons a l ih =>
      simp only [List.flatMap_cons, List.length_append, List.length_cons]
      rw [h a (List.mem_cons_self a l), ih (fun b hb => h b (List.mem_cons_of_mem a hb))]
      ring

theorem neuronexusPositions_ok (c0 c1 c2 : ℕ) (p0 p1 : ℚ) (hp1 : 0 < p1) :
    ∃ l, neuronexusPositions c0 c1 c2 p0 p1 = .ok l ∧ l.length = c0 + c1 + c2 := by
  obtain ⟨hok, hlen⟩ := concat3_ok
    (List.replicate (c0 + c1 + c2) (0 : ℚ))
    (List.replicate c0 (-p0) ++ List.replicate c1 (0 : ℚ) ++ List.replicate c2 p0)
    ((arangeQ (p1 / 2) ((c0 : ℚ) * p1) p1 ++ arangeQ 0 ((c1 : ℚ) * p1) p1 ++
        arangeQ (p1 / 2) ((c2 : ℚ) * p1) p1).map
      (fun z => z + -p1 * ((c1 : ℚ) - 1) / 2))
    (by simp only [List.length_replicate, List.length_append])
    (by
      simp only [List.length_map, List.length_append, List.length_replicate,
        arangeQ_length_half c0 p1 hp1, arangeQ_length_zero c1 p1 hp1,
        arangeQ_length_half c2 p1 hp1])
  rw [neuronexusPositions]
  exact ⟨_, hok, by rw [hlen, List.length_replicate]⟩

theorem raw_elcoords_neuronexus (xo : ℚ) (dim : List ℕ) (p0 p1 : ℚ) (prest : List ℚ)
    (name : String)
    (hname : containsSub "neuronexus-32".toList (pyLowerChars name) = true) :
    raw_elcoords xo dim (p0 :: p1 :: prest) name =
      (if containsSub "cut".toList (pyLowerChars name) then
        (if (30 : ℕ) ≠ dim.prod then
          .error (.valueError "Dimensions in Neuronexus-32-channel probe do not match.")
        else neuronexusPositions 10 10 10 p0 p1)
      else
        (if (32 : ℕ) ≠ dim.prod then
          .error (.valueError "Dimensions in Neuronexus-32-channel probe do not match.")
        else neuronexusPositions 10 12 10 p0 p1)) := by
  simp only [raw_elcoords]
  rw [if_pos hname]
  have hsum10 : ([10, 10, 10] : List ℕ).sum = 30 := by decide
  have hsum12 : ([10, 12, 10] : List ℕ).sum = 32 := by decide
  by_cases hcut : containsSub "cut".toList (pyLowerChars name) = true
  · rw [if_pos hcut, if_pos hcut, hsum10]
  · rw [if_neg hcut, if_neg hcut, hsum12]

/-- Claim C5: a probe name containing neuronexus-32 uses column sizes
(10,12,10), or (10,10,10) for a name also containing cut. When the
column sizes sum to np.prod(dim) the call returns exactly 32 positions
(30 for the cut variant), one per column site; otherwise it raises the
ValueError reporting mismatched dimensions (the InvalidConfiguration of
the spec) and returns no positions. -/
theorem C5_neuronexus (xo : ℚ) (dim : List ℕ) (p0 p1 : ℚ) (prest : List ℚ) (name : String)
    (hname : containsSub "neuronexus-32".toList (pyLowerChars name) = true)
    (hp1 : 0 < p1) :
    ((if containsSub "cut".toList (pyLowerChars name) then [10, 10, 10]
        else [10, 12, 10] : List ℕ).sum = dim.prod →
      ∃ l, get_elcoords xo dim (p0 :: p1 :: prest) name none = .ok l ∧
        l.length = (if containsSub "cut".toList (pyLowerChars name) then 30 else 32)) ∧
    ((if containsSub "cut".toList (pyLowerChars name) then [10, 10, 10]
        else [10, 12, 10] : List ℕ).sum ≠ dim.prod →
      get_elcoords xo dim (p0 :: p1 :: prest) name none =
        .error (.valueError "Dimensions in Neuronexus-32-channel probe do not match.")) := by
  rw [get_elcoords, raw_elcoords_neuronexus xo dim p0 p1 prest name hname]
  by_cases hcut : containsSub "cut".toList (pyLowerChars name) = true
  · simp only [hcut, if_true]
    constructor
    · intro hsum
      have hsum30 : (30 : ℕ) = dim.prod := by simpa using hsum
      obtain ⟨l, hok, hlen⟩ := neuronexusPositions_ok 10 10 10 p0 p1 hp1
      rw [if_neg (not_not_intro hsum30), hok]
      exact ⟨l, rfl, by rw [hlen]⟩
    · intro hsum
      have hsum30 : (30 : ℕ) ≠ dim.prod := by simpa using hsum
      rw [if_pos hsum30]
      rfl
  · rw [Bool.not_eq_true] at hcut
    simp only [hcut, Bool.false_eq_true, if_false]
    constructor
    · intro hsum
      have hsum32 : (32 : ℕ) = dim.prod := by simpa using hsum
      obtain ⟨l, hok, hlen⟩ := neuronexusPositions_ok 10 12 10 p0 p1 hp1
      rw [if_neg (not_not_intro hsum32), hok]
      exact ⟨l, rfl, by rw [hlen]⟩
    · intro hsum
      have hsum32 : (32 : ℕ) ≠ dim.prod := by simpa using hsum
      rw [if_pos hsum32]
      rfl

theorem C5_neuronexus_witness :
    (∃ l, get_elcoords 0 [32, 1] [1, 1] "neuronexus-32" none = .ok l ∧ l.length = 32) ∧
    get_elcoords 0 [5, 5] [1, 1] "neuronexus-32" none =
      .error (.valueError "Dimensions in Neuronexus-32-channel probe do not match.") := by
  have h1 := C5_neuronexus 0 [32, 1] 1 1 [] "neuronexus-32" (by decide) (by norm_num)
  have h2 := C5_neuronexus 0 [5, 5] 1 1 [] "neuronexus-32" (by decide) (by norm_num)
  have hcut : containsSub "cut".toList (pyLowerChars "neuronexus-32") = false := by decide
  constructor
  · have := h1.1 (by rw [hcut]; decide)
    rw [hcut] at this
    simpa using this
  · exact h2.2 (by rw [hcut]; decide)

theorem applySortGo_untouched (orig : List (ℚ × ℚ × ℚ)) (sl : List ℕ) :
    ∀ (idx : ℕ) (acc res : List (ℚ × ℚ × ℚ)), applySortGo orig idx sl acc = some res →
    ∀ t, t ∉ sl → res[t]? = acc[t]? := by
  induction sl with
  | nil =>
      intro idx acc res h t ht
      rw [applySortGo] at h
      cases h
      rfl
  | cons s rest ih =>
      intro idx acc res h t ht
      rw [applySortGo] at h
      split at h
      case isTrue hc =>
        have hne : t ≠ s := by
          intro he
          exact ht (he ▸ List.mem_cons_self s rest)
        have hrest : t ∉ rest := fun hm => ht (List.mem_cons_of_mem s hm)
        rw [ih _ _ _ h t hrest, List.getElem?_set, if_neg (Ne.symm hne)]
      case isFalse hc => exact absurd h (by simp)

theorem applySortGo_some (orig : List (ℚ × ℚ × ℚ)) (sl : List ℕ) :
    ∀ (idx : ℕ) (acc : List (ℚ × ℚ × ℚ)),
    (∀ k, (hk : k < sl.length) → sl.get ⟨k, hk⟩ < acc.length ∧ idx + k < orig.length) →
    ∃ res, applySortGo orig idx sl acc = some res ∧ res.length = acc.length := by
  induction sl with
  | nil =>
      intro idx acc _
      exact ⟨acc, rfl, rfl⟩
  | cons s rest ih =>
      intro idx acc hall
      have h0 := hall 0 (by simp)
      have hcond : s < acc.length ∧ idx < orig.length := by simpa using h0
      have hall2 : ∀ k, (hk : k < rest.length) →
          rest.get ⟨k, hk⟩ < (acc.set s (orig.getD idx (0, 0, 0))).length ∧
          (idx + 1) + k < orig.length := by
        intro k hk
        have := hall (k + 1) (by simpa using Nat.succ_lt_succ hk)
        rw [List.length_set]
        refine ⟨this.1, ?_⟩
        omega
      obtain ⟨res, hres, hlen⟩ := ih (idx + 1) (acc.set s (orig.getD idx (0, 0, 0))) hall2
      refine ⟨res, ?_, by rw [hlen, List.length_set]⟩
      rw [applySortGo, if_pos hcond, hres]

theorem applySortGo_write (orig : List (ℚ × ℚ × ℚ)) (sl : List ℕ) :
    ∀ (idx : ℕ) (acc res : List (ℚ × ℚ × ℚ)), applySortGo orig idx sl acc = some res →
    sl.Nodup →
    ∀ k, (hk : k < sl.length) → idx + k < orig.length →
      res[sl.get ⟨k, hk⟩]? = orig[idx + k]? := by
  induction sl with
  | nil =>
      intro idx acc res h _ k hk
      exact absurd hk (by simp)
  | cons s rest ih =>
      intro idx acc res h hnd k hk hidx
      rw [applySortGo] at h
      split at h
      case isTrue hc =>
        rw [List.nodup_cons] at hnd
        match k with
        | 0 =>
            have hres := applySortGo_untouched orig rest (idx + 1) _ res h s hnd.1
            show res[s]? = orig[idx + 0]?
            rw [Nat.add_zero, hres, List.getElem?_set, if_pos rfl, if_pos hc.1]
            rw [List.getD_eq_getElem?_getD, List.getElem?_eq_getElem hc.2, Option.getD_some]
        | k + 1 =>
            have hk2 : k < rest.length := by simpa using Nat.lt_of_succ_lt_succ hk
            have := ih (idx + 1) _ res h hnd.2 k hk2 (by omega)
            have harr : idx + 1 + k = idx + (k + 1) := by omega
            rw [harr] at this
            exact this
      case isFalse hc => exact absurd h (by simp)

/-- Claim C6, amended: when sort_permutation is a valid permutation of
0..count-1 (right length, in-range entries, no duplicates), the
returned sequence places the i-th generated position at destination
index sort_permutation[i]. However the code never validates the list:
an in-range non-permutation (for example one with duplicate
destinations) is applied silently with no InvalidConfiguration,
overwriting earlier writes; only an out-of-range index raises an error,
and it is an IndexError, not the InvalidConfiguration the spec
promises. The no-duplicates hypothesis below is needed only for the
placement property, not for the call to succeed. -/
theorem C6_sortlist (xo : ℚ) (dim : List ℕ) (pitch : List ℚ) (name : String)
    (sl : List ℕ) (l : List (ℚ × ℚ × ℚ))
    (hraw : raw_elcoords xo dim pitch name = .ok l)
    (hlen : sl.length = l.length)
    (hbound : ∀ k, (hk : k < sl.length) → sl.get ⟨k, hk⟩ < l.length) :
    ∃ res, get_elcoords xo dim pitch name (some sl) = .ok res ∧ res.length = l.length ∧
      (sl.Nodup → ∀ k, (hk : k < sl.length) → res[sl.get ⟨k, hk⟩]? = l[k]?) := by
  have hall : ∀ k, (hk : k < sl.length) → sl.get ⟨k, hk⟩ < l.length ∧ 0 + k < l.length := by
    intro k hk
    refine ⟨hbound k hk, ?_⟩
    have hk2 := hk
    rw [hlen] at hk2
    omega
  obtain ⟨res, hres, hreslen⟩ := applySortGo_some l sl 0 l hall
  refine ⟨res, ?_, hreslen, ?_⟩
  · rw [get_elcoords, hraw]
    simp only [Except.bind, sortStep, applySortlist, hres]
  · intro hnd k hk
    have hw := applySortGo_write l sl 0 l res hres hnd k hk
      (by
        have hk2 := hk
        rw [hlen] at hk2
        omega)
    simpa using hw

theorem mgridAxis_one : mgridAxis 1 = [0] := by
  rw [mgridAxis_eq]
  simp [List.range_succ]

theorem mgridAxis_two : mgridAxis 2 = [-(1 / 2 : ℚ), 1 / 2] := by
  rw [mgridAxis_eq]
  simp [List.range_succ]
  norm_num

theorem raw_rect_12 :
    raw_elcoords 0 [1, 2] [1, 1] "rect" = .ok [(0, 0, -(1 / 2 : ℚ)), (0, 0, 1 / 2)] := by
  simp only [raw_elcoords]
  rw [if_neg (by decide), if_neg (by decide), gridBranch, mgridAxis_one, mgridAxis_two]
  simp [concat3]

theorem C6_sortlist_witness :
    ∃ res, get_elcoords 0 [1, 2] [1, 1] "rect" (some [1, 0]) = .ok res ∧
      res.length = 2 ∧ res[1]? = some (0, 0, -(1 / 2 : ℚ)) ∧
      res[0]? = some (0, 0, (1 / 2 : ℚ)) := by
  obtain ⟨res, hok, hlen, hperm⟩ := C6_sortlist 0 [1, 2] [1, 1] "rect" [1, 0]
    [(0, 0, -(1 / 2 : ℚ)), (0, 0, 1 / 2)] raw_rect_12 (by rfl)
    (by
      intro k hk
      simp only [List.length_cons, List.length_nil] at hk
      interval_cases k <;> simp)
  have h0 := hperm (by decide) 0 (by decide)
  have h1 := hperm (by decide) 1 (by decide)
  exact ⟨res, hok, by simpa using hlen, by simpa using h0, by simpa using h1⟩

/-- Claim C6 fails as stated for an invalid sort list: with two
generated positions and sortlist [0, 0] (not a permutation), the call
returns normally with both output slots holding the second position,
raising no InvalidConfiguration at all. -/
theorem C6_sortlist_counterexample :
    get_elcoords 0 [1, 2] [1, 1] "rect" (some [0, 0]) =
      .ok [(0, 0, (1 / 2 : ℚ)), (0, 0, 1 / 2)] ∧
    ¬ ([0, 0] : List ℕ).Nodup ∧
    ∀ e : PyError, get_elcoords 0 [1, 2] [1, 1] "rect" (some [0, 0]) ≠ .error e := by
  have hmain : get_elcoords 0 [1, 2] [1, 1] "rect" (some [0, 0]) =
      .ok [(0, 0, (1 / 2 : ℚ)), (0, 0, 1 / 2)] := by
    rw [get_elcoords, raw_rect_12]
    rfl
  refine ⟨hmain, by decide, ?_⟩
  intro e h
  rw [hmain] at h
  exact Except.noConfusion h

theorem npixYoffset_length (d1 : ℕ) (p0 : ℚ) :
    (npixYoffset d1 p0).length = 2 * (d1 / 2) := by
  simp [npixYoffset, List.length_flatten, List.map_replicate, List.sum_replicate, smul_eq_mul]
  ring

theorem broadcastAdd1_same (row off : List ℚ) (h : row.length = off.length) :
    ∃ r2, broadcastAdd1 row off = some r2 ∧ r2.length = row.length := by
  rw [broadcastAdd1, if_pos h]
  refine ⟨_, rfl, ?_⟩
  simp only [List.length_zipWith, ← h]
  omega

theorem broadcastAdd1_one_empty (row : List ℚ) (h : row.length = 1) :
    broadcastAdd1 row [] = some [] := by
  rw [broadcastAdd1, if_neg (by simp [h]), if_pos h]
  rfl

theorem broadcastAdd1_none (row off : List ℚ) (h1 : row.length ≠ off.length)
    (h2 : row.length ≠ 1) (h3 : off.length ≠ 1) : broadcastAdd1 row off = none := by
  rw [broadcastAdd1, if_neg h1, if_neg h2, if_neg h3]

theorem mapBroadcast_ok (off : List ℚ) (m : ℕ) (rows : List (List ℚ))
    (h : ∀ r ∈ rows, ∃ r2, broadcastAdd1 r off = some r2 ∧ r2.length = m) :
    ∃ rows2, mapBroadcast off rows = some rows2 ∧
      rows2.flatten.length = rows.length * m := by
  induction rows with
  | nil => exact ⟨[], rfl, by simp⟩
  | cons r rs ih =>
      obtain ⟨r2, hr2, hr2len⟩ := h r (List.mem_cons_self r rs)
      obtain ⟨rows2, hrows2, hflat⟩ := ih (fun x hx => h x (List.mem_cons_of_mem r hx))
      refine ⟨r2 :: rows2, ?_, ?_⟩
      · rw [mapBroadcast, hr2, hrows2]
        rfl
      · simp only [List.flatten_cons, List.length_append, List.length_cons, hflat, hr2len]
        ring

theorem raw_elcoords_npix_v1 (xo : ℚ) (dim : List ℕ) (pitch : List ℚ) (name : String)
    (hnx : containsSub "neuronexus-32".toList (pyLowerChars name) = false)
    (hnp : containsSub "neuropixels".toList (pyLowerChars name) = true)
    (hv1 : containsSub "v1".toList (pyLowerChars name) = true) :
    raw_elcoords xo dim pitch name = npixV1Branch xo dim pitch := by
  simp only [raw_elcoords]
  rw [if_neg (by rw [hnx]; simp), if_pos hnp, if_pos hv1]

/-- Claim C10: in the neuropixels v1 branch the alternating stagger
offset list built from +pitch0/4 and -pitch0/4 has 2 * (dim1 / 2)
entries (floor division), so it broadcasts across the dim1 grid columns
exactly when dim1 is even: for even dim1 the call produces the
dim0 * dim1 position list, and for every odd dim1 the broadcast (or,
for dim1 = 1, the subsequent concatenation) fails and no layout is
produced - an undocumented precondition that dim1 be even. -/
theorem C10_neuropixels_v1 (xo : ℚ) (d0 d1 : ℕ) (dimrest : List ℕ) (p0 p1 : ℚ)
    (prest : List ℚ) (name : String)
    (hnx : containsSub "neuronexus-32".toList (pyLowerChars name) = false)
    (hnp : containsSub "neuropixels".toList (pyLowerChars name) = true)
    (hv1 : containsSub "v1".toList (pyLowerChars name) = true)
    (hd0 : 1 ≤ d0) :
    (npixYoffset d1 p0).length = 2 * (d1 / 2) ∧
    (d1 % 2 = 0 → ∃ l, get_elcoords xo (d0 :: d1 :: dimrest) (p0 :: p1 :: prest) name none =
      .ok l ∧ l.length = d0 * d1) ∧
    (d1 % 2 = 1 → ∃ err, get_elcoords xo (d0 :: d1 :: dimrest) (p0 :: p1 :: prest) name none =
      .error err) := by
  have hraw := raw_elcoords_npix_v1 xo (d0 :: d1 :: dimrest) (p0 :: p1 :: prest) name hnx hnp hv1
  have hxlen : ((mgridAxis d0).flatMap
      (fun _ => (mgridAxis d1).map (fun _ => xo))).length = d0 * d1 := by
    rw [flatMap_const_length _ _ d1 (fun a _ => by rw [List.length_map, mgridAxis_length]),
      mgridAxis_length]
  have hzlen : ((mgridAxis d0).flatMap
      (fun _ => (mgridAxis d1).map (fun zv => zv * p1))).length = d0 * d1 := by
    rw [flatMap_const_length _ _ d1 (fun a _ => by rw [List.length_map, mgridAxis_length]),
      mgridAxis_length]
  refine ⟨npixYoffset_length d1 p0, ?_, ?_⟩
  · intro heven
    have hoff : (npixYoffset d1 p0).length = d1 := by
      rw [npixYoffset_length]
      omega
    have hrows : ∀ r ∈ (mgridAxis d0).map (fun yv => (mgridAxis d1).map (fun _ => yv * p0)),
        ∃ r2, broadcastAdd1 r (npixYoffset d1 p0) = some r2 ∧ r2.length = d1 := by
      intro r hr
      obtain ⟨yv, -, rfl⟩ := List.mem_map.1 hr
      have hrl : ((mgridAxis d1).map (fun _ => yv * p0)).length = d1 := by
        rw [List.length_map, mgridAxis_length]
      obtain ⟨r2, hr2, hr2len⟩ := broadcastAdd1_same ((mgridAxis d1).map (fun _ => yv * p0))
        (npixYoffset d1 p0) (by rw [hrl, hoff])
      exact ⟨r2, hr2, by rw [hr2len, hrl]⟩
    obtain ⟨rows2, hmb, hflat⟩ := mapBroadcast_ok (npixYoffset d1 p0) d1 _ hrows
    have hylen : rows2.flatten.length = d0 * d1 := by
      rw [hflat, List.length_map, mgridAxis_length]
    obtain ⟨hok, hlen⟩ := concat3_ok
      ((mgridAxis d0).flatMap (fun _ => (mgridAxis d1).map (fun _ => xo)))
      rows2.flatten
      ((mgridAxis d0).flatMap (fun _ => (mgridAxis d1).map (fun zv => zv * p1)))
      (by rw [hxlen, hylen]) (by rw [hylen, hzlen])
    refine ⟨_, ?_, by rw [hlen, hxlen]⟩
    rw [get_elcoords, hraw]
    simp only [npixV1Branch, hmb, hok]
    rfl
  · intro hodd
    by_cases hd1 : d1 = 1
    · subst hd1
      have hoff : npixYoffset 1 p0 = [] := rfl
      have hrows : ∀ r ∈ (mgridAxis d0).map (fun yv => (mgridAxis 1).map (fun _ => yv * p0)),
          ∃ r2, broadcastAdd1 r (npixYoffset 1 p0) = some r2 ∧ r2.length = 0 := by
        intro r hr
        obtain ⟨yv, -, rfl⟩ := List.mem_map.1 hr
        have hrl : ((mgridAxis 1).map (fun _ => yv * p0)).length = 1 := by
          rw [List.length_map, mgridAxis_length]
        rw [hoff]
        exact ⟨[], broadcastAdd1_one_empty _ hrl, rfl⟩
      obtain ⟨rows2, hmb, hflat⟩ := mapBroadcast_ok (npixYoffset 1 p0) 0 _ hrows
      have hylen : rows2.flatten.length = 0 := by
        rw [hflat]
        omega
      have hmis : ¬ (((mgridAxis d0).flatMap
          (fun _ => (mgridAxis 1).map (fun _ => xo))).length = rows2.flatten.length ∧
          rows2.flatten.length = ((mgridAxis d0).flatMap
            (fun _ => (mgridAxis 1).map (fun zv => zv * p1))).length) := by
        rw [hxlen, hylen]
        omega
      refine ⟨.valueError "could not broadcast or concatenate input arrays", ?_⟩
      rw [get_elcoords, hraw]
      simp only [npixV1Branch, hmb, concat3_mismatch _ _ _ hmis]
      rfl
    · have hd13 : 3 ≤ d1 := by omega
      have hne : mgridAxis d0 ≠ [] := by
        have := mgridAxis_length d0
        intro hcon
        rw [hcon] at this
        simp at this
        omega
      obtain ⟨y0, ytail, hy⟩ := List.exists_cons_of_ne_nil hne
      have hrow0 : ((mgridAxis d1).map (fun _ => y0 * p0)).length = d1 := by
        rw [List.length_map, mgridAxis_length]
      have hb : broadcastAdd1 ((mgridAxis d1).map (fun _ => y0 * p0)) (npixYoffset d1 p0) =
          none := by
        apply broadcastAdd1_none
        · rw [hrow0, npixYoffset_length]
          omega
        · rw [hrow0]
          omega
        · rw [npixYoffset_length]
          omega
      have hmb : mapBroadcast (npixYoffset d1 p0)
          ((mgridAxis d0).map (fun yv => (mgridAxis d1).map (fun _ => yv * p0))) = none := by
        rw [hy, List.map_cons, mapBroadcast, hb]
        rfl
      refine ⟨.valueError "operands could not be broadcast together", ?_⟩
      rw [get_elcoords, hraw]
      simp only [npixV1Branch, hmb]
      rfl

theorem C10_neuropixels_v1_witness :
    (npixYoffset 2 1).length = 2 * (2 / 2) ∧
    (∃ l, get_elcoords 0 [1, 2] [1, 1] "neuropixels-v1" none = .ok l ∧ l.length = 1 * 2) ∧
    (∃ err, get_elcoords 0 [1, 3] [1, 1] "neuropixels-v1" none = .error err) := by
  have h2 := C10_neuropixels_v1 0 1 2 [] 1 1 [] "neuropixels-v1"
    (by decide) (by decide) (by decide) (by norm_num)
  have h3 := C10_neuropixels_v1 0 1 3 [] 1 1 [] "neuropixels-v1"
    (by decide) (by decide) (by decide) (by norm_num)
  exact ⟨h2.1, h2.2.1 (by norm_num), h3.2.2 (by norm_num)⟩

end NeuroCNN
